import Mathlib

/-!
Verification of the conversation-context manager and reply-chunking engine of
a Telegram chat bot (source: `bot.py`).  The Python code is shallowly embedded:
strings are `List Char`, Python `int` results that are provably non-negative are
`Nat`, indices that can be the `-1` sentinel of `str.rfind` are `Int`, and the
in-place mutation of the per-chat history list is made explicit by passing the
stored history in and out of the handler.  External collaborators (the tiktoken
encoder, the inference backend, `random.choice`) are parameters of the
corresponding functions.  Python's `\s`/`str.strip` whitespace class is
modelled by its ASCII part, and `str.lower` by `Char.toLower`.
-/

/-- ASCII part of Python's whitespace class `\s` (used by `re.split`,
`str.strip` and `str.split`). -/
def pyIsSpace (c : Char) : Bool :=
  c == ' ' || c == '\t' || c == '\n' || c == '\r' || c == '\x0b' || c == '\x0c'

/-- The sentence-ending punctuation of the look-behind in
`re.split(r'(?<=[.!?])\s+', text)` (bot.py line 105). -/
def sentPunct (c : Char) : Bool :=
  c == '.' || c == '!' || c == '?'

/-- Python `str.lower` (character-wise). -/
def lowerL (l : List Char) : List Char :=
  l.map Char.toLower

/-- Python `str.strip()`: remove leading and trailing whitespace. -/
def pyStrip (l : List Char) : List Char :=
  (((l.dropWhile pyIsSpace).reverse.dropWhile pyIsSpace)).reverse

/-- Python slice `s[:j]` where `j` may be negative (as in `text[:cut]` with
`cut = -1` from a failed `rfind`, bot.py line 108). -/
def pySliceTo (l : List Char) (j : Int) : List Char :=
  if j < 0 then l.take ((l.length + j).toNat) else l.take j.toNat

/-- Python slice `s[i:]` where `i` may be negative. -/
def pySliceFrom (l : List Char) (i : Int) : List Char :=
  if i < 0 then l.drop ((l.length + i).toNat) else l.drop i.toNat

/-- Python `text.rfind(" ", 0, hi)`: the largest index `< hi` holding a space
character, and `-1` if there is none (bot.py line 107). -/
def pyRfindSpace (l : List Char) : Nat → Int
  | 0 => -1
  | hi + 1 => if l.getD hi 'a' == ' ' then (hi : Int) else pyRfindSpace l hi

/-- `begWith p l` decides whether `p` is an initial run of `l`. -/
def begWith : List Char → List Char → Bool
  | [], _ => true
  | _ :: _, [] => false
  | a :: p, b :: l => a == b && begWith p l

/-- Python's substring test `p in l`. -/
def containsSeg (p : List Char) : List Char → Bool
  | [] => p.isEmpty
  | c :: rest => begWith p (c :: rest) || containsSeg p rest

/-- A chat message: the Python dict `{"role": ..., "content": ...}`. -/
structure Msg where
  role : List Char
  content : List Char
deriving DecidableEq

def roleSystem : List Char := "system".toList

def roleUser : List Char := "user".toList

def roleAssistant : List Char := "assistant".toList

/-- `SYSTEM_PROMPT` from bot.py lines 27-30 (two adjacent string literals). -/
def SYSTEM_PROMPT : List Char := ("You are ...." ++ "Your name is .....").toList

/-- `MAX_TOKENS_CONTEXT` (bot.py line 32). -/
def MAX_TOKENS_CONTEXT : Nat := 4096

/-- `RESET_TRIGGER` (bot.py line 36). -/
def RESET_TRIGGER : List Char := "/done".toList

/-- `PRESET_RESPONSES` (bot.py lines 37-41). -/
def PRESET_RESPONSES : List (List Char) :=
  ["Ok, I have reset the context.".toList,
   "Okay, I will reset the context now.".toList,
   "Okay, I have cleared the context.".toList]

/-- The fixed apology sent when the backend call raises (bot.py line 174). -/
def APOLOGY : List Char := "Oops".toList

/-- `num_tokens(msgs)` (bot.py lines 75-82).  The tiktoken encoder is an
external collaborator; `encLen s` stands for `len(enc.encode(s))`. -/
def num_tokens (encLen : List Char → Nat) (msgs : List Msg) : Nat :=
  (msgs.foldl (fun t m => t + 4 + encLen m.content) 0) + 2

/-- Python `del msgs[1]` on the history list. -/
def delAt1 : List Msg → List Msg
  | a :: _ :: rest => a :: rest
  | l => l

/-- The `while` loop of `trim_to_limit` (bot.py lines 87-88), written with
explicit fuel so that it is structurally recursive; `fuel ≥ length - 2`
iterations always suffice because each pass deletes one element. -/
def trimGo (encLen : List Char → Nat) (limit : Nat) : Nat → List Msg → List Msg
  | 0, msgs => msgs
  | fuel + 1, msgs =>
    if 2 < msgs.length ∧ limit < num_tokens encLen msgs then
      trimGo encLen limit fuel (delAt1 msgs)
    else msgs

/-- `trim_to_limit(msgs, limit)` (bot.py lines 85-88), returning the final
value of the mutated list. -/
def trim_to_limit (encLen : List Char → Nat) (limit : Nat) (msgs : List Msg) : List Msg :=
  trimGo encLen limit msgs.length msgs

/-- Fuelled worker for `words` (fuel `≥ length` suffices). -/
def wordsGo : Nat → List Char → List (List Char)
  | 0, _ => []
  | _ + 1, [] => []
  | fuel + 1, c :: rest =>
    if pyIsSpace c then wordsGo fuel rest
    else (c :: rest.takeWhile (fun x => !pyIsSpace x)) ::
      wordsGo fuel (rest.dropWhile (fun x => !pyIsSpace x))

/-- The maximal whitespace-separated words of a string, i.e. Python
`text.split()`: the canonical whitespace-normal form used to state the
"up to whitespace normalization" round-trip invariant. -/
def words (l : List Char) : List (List Char) :=
  wordsGo l.length l

/-- Concatenation of the word lists of several strings. -/
def catWords : List (List Char) → List (List Char)
  | [] => []
  | s :: rest => words s ++ catWords rest

/-- Python `" ".join(parts)`. -/
def joinSp : List (List Char) → List Char
  | [] => []
  | [s] => s
  | s :: rest => s ++ ' ' :: joinSp rest

/-- Fuelled scanner for `re.split(r'(?<=[.!?])\s+', text)`: a piece ends when a
character of `[.!?]` is immediately followed by whitespace, and the maximal
whitespace run is consumed.  Fuel `≥ length` suffices (each step shortens the
remaining input). -/
def sentGo : Nat → List Char → List Char → List (List Char)
  | 0, acc, l => [acc.reverse ++ l]
  | _ + 1, acc, [] => [acc.reverse]
  | _ + 1, acc, [c] => [acc.reverse ++ [c]]
  | fuel + 1, acc, c :: d :: rest =>
    if sentPunct c && pyIsSpace d then
      (acc.reverse ++ [c]) :: sentGo fuel [] (rest.dropWhile pyIsSpace)
    else
      sentGo fuel (c :: acc) (d :: rest)

/-- `re.split(r'(?<=[.!?])\s+', text)` (bot.py line 105). -/
def pySentSplit (text : List Char) : List (List Char) :=
  sentGo text.length [] text

/-- One iteration of the sentence-accumulation loop of `_split_reply`
(bot.py lines 114-120); the state is `(part1, part2, char_count)` and the
test `char_count < half_len` (with `half_len = len(text)/2`) is the exact
rational comparison `2 * char_count < n`. -/
def splitStep (n : Nat) (st : List (List Char) × List (List Char) × Nat) (s : List Char) :
    List (List Char) × List (List Char) × Nat :=
  if 2 * st.2.2 < n ∨ st.1 = [] then (st.1 ++ [s], st.2.1, st.2.2 + s.length + 1)
  else (st.1, st.2.1 ++ [s], st.2.2)

/-- `_split_reply(text, force_two)` (bot.py lines 94-126).  `part1.pop()` on
the edge case is total here via `getLastD`; the popped list is provably
non-empty in that branch. -/
def split_reply (text : List Char) (force_two : Bool) : List (List Char) :=
  if force_two = false ∧ text.length ≤ 250 then [text]
  else
    let sentences := pySentSplit text
    if sentences.length = 1 then
      let cut := pyRfindSpace text (text.length / 2)
      [pyStrip (pySliceTo text cut), pyStrip (pySliceFrom text (cut + 1))]
    else
      let st := sentences.foldl (splitStep text.length) ([], [], 0)
      let parts := if st.2.1 = [] then (st.1.dropLast, [st.1.getLastD []]) else (st.1, st.2.1)
      [pyStrip (joinSp parts.1), pyStrip (joinSp parts.2)]

/-- Append `extra` to the content of message `i` (used to state monotonicity
of `num_tokens` in the length of one message's content). -/
def lengthenAt : List Msg → Nat → List Char → List Msg
  | [], _, _ => []
  | m :: rest, 0, extra => ⟨m.role, m.content ++ extra⟩ :: rest
  | m :: rest, i + 1, extra => m :: lengthenAt rest i extra

/-- Observable outcome of one call of `handle_msg`: the texts passed to
`msg.reply_text` in order, the value of `context.chat_data["history"]`
afterwards (`none` if the key is absent), and whether the inference backend
was called. -/
structure TurnResult where
  outbound : List (List Char)
  stored : Option (List Msg)
  backendCalled : Bool
deriving DecidableEq

/-- History after `history.append({"role": "user", ...})` with lazy seeding of
the system prompt (bot.py lines 156-160). -/
def seedHistory (chatData : Option (List Msg)) (user_text : List Char) : List Msg :=
  (if chatData.getD [] = [] then [⟨roleSystem, SYSTEM_PROMPT⟩] else chatData.getD []) ++
    [⟨roleUser, user_text⟩]

/-- The history handed to the backend: seeded, user message appended, trimmed
(bot.py lines 156-161). -/
def preHistory (encLen : List Char → Nat) (chatData : Option (List Msg))
    (text : List Char) : List Msg :=
  trim_to_limit encLen MAX_TOKENS_CONTEXT (seedHistory chatData (pyStrip text))

/-- `handle_msg` (bot.py lines 135-190) for a non-empty inbound text.
`chatData` is `context.chat_data["history"]` before the call (`none` when the
key is absent, in which case `.get("history", [])` yields a fresh list that is
only persisted by the final assignment on line 190 — mutations on the failure
path are lost).  `backend` returns `none` when the completion call raises;
`choice` is the index drawn by `random.choice(PRESET_RESPONSES)`. -/
def handle_msg (encLen : List Char → Nat) (chatData : Option (List Msg))
    (text : List Char) (backend : List Msg → Option (List Char)) (choice : Fin 3) :
    TurnResult :=
  let user_text := pyStrip text
  if containsSeg (lowerL RESET_TRIGGER) (lowerL user_text) = true then
    { outbound := [PRESET_RESPONSES.getD choice.val []],
      stored := some [],
      backendCalled := false }
  else
    let history := preHistory encLen chatData text
    match backend history with
    | none =>
      { outbound := [APOLOGY],
        stored := match chatData with
          | some _ => some history
          | none => none,
        backendCalled := true }
    | some raw =>
      let full_reply := pyStrip raw
      { outbound := split_reply full_reply false,
        stored := some (history ++ [⟨roleAssistant, full_reply⟩]),
        backendCalled := true }

/-! ## Helper lemmas -/

theorem num_tokens_eq (encLen : List Char → Nat) (msgs : List Msg) :
    num_tokens encLen msgs = 2 + (msgs.map (fun m => 4 + encLen m.content)).sum := by
  suffices h : ∀ t, msgs.foldl (fun t m => t + 4 + encLen m.content) t =
      t + (msgs.map (fun m => 4 + encLen m.content)).sum by
    simp only [num_tokens, h 0]
    omega
  induction msgs with
  | nil => simp
  | cons m rest ih =>
    intro t
    simp only [List.foldl_cons, List.map_cons, List.sum_cons, ih]
    omega

theorem sum_lengthenAt_ge (encLen : List Char → Nat)
    (hmono : ∀ s t : List Char, encLen s ≤ encLen (s ++ t)) :
    ∀ (msgs : List Msg) (i : Nat) (extra : List Char),
      (msgs.map (fun m => 4 + encLen m.content)).sum ≤
        ((lengthenAt msgs i extra).map (fun m => 4 + encLen m.content)).sum := by
  intro msgs
  induction msgs with
  | nil => intro i extra; simp [lengthenAt]
  | cons m rest ih =>
    intro i extra
    cases i with
    | zero =>
      simp only [lengthenAt, List.map_cons, List.sum_cons]
      have := hmono m.content extra
      omega
    | succ j =>
      simp only [lengthenAt, List.map_cons, List.sum_cons]
      have := ih j extra
      omega

theorem trimGo_invariants (encLen : List Char → Nat) (limit : Nat) :
    ∀ (fuel : Nat) (msgs : List Msg), msgs.length ≤ fuel + 2 →
      ((trimGo encLen limit fuel msgs).length ≤ 2 ∨
        num_tokens encLen (trimGo encLen limit fuel msgs) ≤ limit) ∧
      (trimGo encLen limit fuel msgs).head? = msgs.head? ∧
      (trimGo encLen limit fuel msgs).getLast? = msgs.getLast? ∧
      ∃ k, trimGo encLen limit fuel msgs = msgs.take 1 ++ msgs.drop (1 + k) := by
  intro fuel
  induction fuel with
  | zero =>
    intro msgs h
    refine ⟨Or.inl (by simpa using h), rfl, rfl, 0, ?_⟩
    cases msgs <;> simp [trimGo]
  | succ fuel ih =>
    intro msgs h
    rw [trimGo]
    split
    case isTrue hc =>
      match msgs, hc with
      | a :: b :: c :: rs, _ =>
        have hlen : (a :: c :: rs).length ≤ fuel + 2 := by
          simp only [List.length_cons] at h ⊢; omega
        obtain ⟨h1, h2, h3, k, h4⟩ := ih (a :: c :: rs) hlen
        have hdel : delAt1 (a :: b :: c :: rs) = a :: c :: rs := rfl
        rw [hdel]
        have hdrop : ∀ (x : Msg) (xs : List Msg) (n : Nat),
            List.drop (1 + n) (x :: xs) = List.drop n xs := by
          intro x xs n; rw [Nat.add_comm]; simp [List.drop_succ_cons]
        refine ⟨h1, ?_, ?_, k + 1, ?_⟩
        · rw [h2]; rfl
        · rw [h3]
          simp [List.getLast?_cons_cons]
        · rw [h4, hdrop a (c :: rs) k, hdrop a (b :: c :: rs) (k + 1), List.drop_succ_cons]
          rfl
      | a :: b :: [], hc => simp at hc
      | a :: [], hc => simp at hc
      | [], hc => simp at hc
    case isFalse hc =>
      refine ⟨?_, rfl, rfl, 0, ?_⟩
      · rcases not_and_or.mp hc with h1 | h2
        · exact Or.inl (by omega)
        · exact Or.inr (by omega)
      · cases msgs <;> simp

theorem trim_to_limit_short (encLen : List Char → Nat) (limit : Nat) (msgs : List Msg)
    (h : msgs.length ≤ 2) : trim_to_limit encLen limit msgs = msgs := by
  unfold trim_to_limit
  cases hf : msgs.length with
  | zero => rfl
  | succ n =>
    rw [trimGo]
    rw [if_neg]
    intro hcon
    omega

/-! ## Claims C1, C2, C7, C9, C10 -/

/-- C1: after `trim_to_limit(msgs, limit)`, either the list has length ≤ 2 or
its `num_tokens` is ≤ `limit`; the result is the original list with a (possibly
empty) contiguous block removed starting at position 1, so the element at
index 0 and the last element are preserved. -/
theorem c1_trim_to_limit_invariants (encLen : List Char → Nat) (limit : Nat) (msgs : List Msg) :
    ((trim_to_limit encLen limit msgs).length ≤ 2 ∨
      num_tokens encLen (trim_to_limit encLen limit msgs) ≤ limit) ∧
    (trim_to_limit encLen limit msgs).head? = msgs.head? ∧
    (trim_to_limit encLen limit msgs).getLast? = msgs.getLast? ∧
    ∃ k, trim_to_limit encLen limit msgs = msgs.take 1 ++ msgs.drop (1 + k) :=
  trimGo_invariants encLen limit msgs.length msgs (by omega)

/-- C2 counterexample: for the non-empty text `"a"`, `_split_reply` with
`force_two = true` returns two chunks, but the first chunk is the empty
string — refuting "both chunks are non-empty strings". -/
theorem c2_counterexample :
    split_reply ("a".toList) true = [[], "a".toList] ∧
    ¬ (∀ c ∈ split_reply ("a".toList) true, c ≠ []) := by
  exact ⟨by decide, by decide⟩

/-- C2 amended: for every non-empty text, `_split_reply(text, force_two=true)`
returns exactly 2 chunks; the chunks need not be non-empty (the first chunk is
empty e.g. for `"a"`, and the second chunk is empty e.g. for `"Hi. "`). -/
theorem c2_force_two_two_chunks (text : List Char) (h : text ≠ []) :
    (split_reply text true).length = 2 := by
  unfold split_reply
  rw [if_neg (by simp)]
  dsimp only
  split <;> simp

/-- C2 witness. -/
theorem c2_witness : ("ab".toList ≠ []) ∧ (split_reply ("ab".toList) true).length = 2 :=
  ⟨by decide, c2_force_two_two_chunks ("ab".toList) (by decide)⟩

/-- C7: `num_tokens` equals 2 plus, per message, 4 plus the encoded-token
count of its content (the result is a `Nat`, hence non-negative, and the
function is deterministic because the embedding is a pure function of its
arguments); appending a message never decreases the result, and lengthening
one message's content never decreases the result provided the external
subword encoder is itself monotone under appending — the requirement the
specification places on the encoding. -/
theorem c7_num_tokens_formula (encLen : List Char → Nat) (msgs : List Msg) (m : Msg)
    (i : Nat) (extra : List Char)
    (hmono : ∀ s t : List Char, encLen s ≤ encLen (s ++ t)) :
    num_tokens encLen msgs = 2 + (msgs.map (fun x => 4 + encLen x.content)).sum ∧
    num_tokens encLen msgs ≤ num_tokens encLen (msgs ++ [m]) ∧
    num_tokens encLen msgs ≤ num_tokens encLen (lengthenAt msgs i extra) := by
  refine ⟨num_tokens_eq encLen msgs, ?_, ?_⟩
  · rw [num_tokens_eq, num_tokens_eq]
    simp
  · rw [num_tokens_eq, num_tokens_eq]
    have := sum_lengthenAt_ge encLen hmono msgs i extra
    omega

/-- C7 witness. -/
theorem c7_witness :
    (∀ s t : List Char, (fun l : List Char => l.length) s ≤ (fun l : List Char => l.length) (s ++ t)) ∧
    (num_tokens (fun l => l.length) [⟨roleUser, "hi".toList⟩] =
      2 + (([⟨roleUser, "hi".toList⟩] : List Msg).map (fun x => 4 + x.content.length)).sum ∧
    num_tokens (fun l => l.length) [⟨roleUser, "hi".toList⟩] ≤
      num_tokens (fun l => l.length) ([⟨roleUser, "hi".toList⟩] ++ [⟨roleAssistant, "yo".toList⟩]) ∧
    num_tokens (fun l => l.length) [⟨roleUser, "hi".toList⟩] ≤
      num_tokens (fun l => l.length) (lengthenAt [⟨roleUser, "hi".toList⟩] 0 ("!".toList))) :=
  ⟨fun s t => by simp,
   c7_num_tokens_formula (fun l => l.length) [⟨roleUser, "hi".toList⟩]
     ⟨roleAssistant, "yo".toList⟩ 0 ("!".toList) (fun s t => by simp)⟩

/-- C9: a text of length ≤ 250 with `force_two = false` is returned as the
single unmodified chunk `[text]`. -/
theorem c9_short_reply_single_chunk (text : List Char) (h : text.length ≤ 250) :
    split_reply text false = [text] := by
  unfold split_reply
  rw [if_pos ⟨rfl, h⟩]

/-- C9 witness. -/
theorem c9_witness : ("hi".toList).length ≤ 250 ∧ split_reply ("hi".toList) false = ["hi".toList] :=
  ⟨by decide, c9_short_reply_single_chunk ("hi".toList) (by decide)⟩

/-- C10: `num_tokens` depends only on the sequence of content strings, never
on the role fields: two message lists with pointwise-equal contents (hence
equal length) get the same estimate whatever their roles. -/
theorem c10_num_tokens_role_blind (encLen : List Char → Nat) (m1 m2 : List Msg)
    (h : m1.map (fun m => m.content) = m2.map (fun m => m.content)) :
    num_tokens encLen m1 = num_tokens encLen m2 := by
  rw [num_tokens_eq, num_tokens_eq]
  have hm : ∀ l : List Msg,
      l.map (fun m => 4 + encLen m.content) =
        (l.map (fun m => m.content)).map (fun c => 4 + encLen c) := by
    intro l; rw [List.map_map]; rfl
  rw [hm, hm, h]

/-- C10 witness: same contents, different roles, same estimate. -/
theorem c10_witness :
    (([⟨roleSystem, "hi".toList⟩, ⟨roleUser, "yo".toList⟩] : List Msg).map (fun m => m.content) =
      ([⟨roleAssistant, "hi".toList⟩, ⟨roleSystem, "yo".toList⟩] : List Msg).map (fun m => m.content)) ∧
    num_tokens (fun l => l.length) [⟨roleSystem, "hi".toList⟩, ⟨roleUser, "yo".toList⟩] =
      num_tokens (fun l => l.length) [⟨roleAssistant, "hi".toList⟩, ⟨roleSystem, "yo".toList⟩] :=
  ⟨by decide,
   c10_num_tokens_role_blind (fun l => l.length)
     [⟨roleSystem, "hi".toList⟩, ⟨roleUser, "yo".toList⟩]
     [⟨roleAssistant, "hi".toList⟩, ⟨roleSystem, "yo".toList⟩] (by decide)⟩

/-! ## Whitespace-normalization (`words`) machinery for the round-trip claims -/

theorem wordsGo_nil : ∀ fuel, wordsGo fuel [] = [] := by
  intro fuel; cases fuel <;> rfl

theorem wordsGo_irrel : ∀ (f1 f2 : Nat) (l : List Char),
    l.length ≤ f1 → l.length ≤ f2 → wordsGo f1 l = wordsGo f2 l := by
  intro f1
  induction f1 with
  | zero =>
    intro f2 l h1 _
    have hl : l = [] := List.length_eq_zero.mp (Nat.le_zero.mp h1)
    subst hl
    rw [wordsGo_nil, wordsGo_nil]
  | succ f1 ih =>
    intro f2 l h1 h2
    cases l with
    | nil => rw [wordsGo_nil, wordsGo_nil]
    | cons c rest =>
      cases f2 with
      | zero => simp at h2
      | succ f2 =>
        simp only [wordsGo]
        by_cases hc : pyIsSpace c
        · rw [if_pos hc, if_pos hc]
          exact ih f2 rest (by simpa using h1) (by simpa using h2)
        · rw [if_neg hc, if_neg hc]
          congr 1
          have hd := (List.dropWhile_sublist (l := rest) (fun x => !pyIsSpace x)).length_le
          exact ih f2 _ (by simp at h1; omega) (by simp at h2; omega)

theorem words_cons_space {c : Char} (hc : pyIsSpace c = true) (l : List Char) :
    words (c :: l) = words l := by
  unfold words
  simp only [List.length_cons, wordsGo, hc, if_true]

theorem words_cons_not_space {c : Char} (hc : pyIsSpace c = false) (l : List Char) :
    words (c :: l) = (c :: l.takeWhile (fun x => !pyIsSpace x)) ::
      words (l.dropWhile (fun x => !pyIsSpace x)) := by
  unfold words
  simp only [List.length_cons, wordsGo, hc, Bool.false_eq_true, if_false]
  congr 1
  have hd := (List.dropWhile_sublist (l := l) (fun x => !pyIsSpace x)).length_le
  exact wordsGo_irrel l.length _ _ (by omega) le_rfl

theorem words_nil : words [] = [] := rfl

theorem words_allspace : ∀ {w : List Char}, (∀ c ∈ w, pyIsSpace c = true) → words w = [] := by
  intro w
  induction w with
  | nil => intro _; rfl
  | cons c rest ih =>
    intro h
    rw [words_cons_space (h c (List.mem_cons_self c rest))]
    exact ih (fun x hx => h x (List.mem_cons_of_mem c hx))

theorem dropWhile_head_false {q : Char → Bool} :
    ∀ {l s : List Char} {v : Char}, l.dropWhile q = v :: s → q v = false := by
  intro l
  induction l with
  | nil => intro s v h; simp [List.dropWhile] at h
  | cons a t ih =>
    intro s v h
    by_cases ha : q a
    · rw [List.dropWhile_cons_of_pos ha] at h
      exact ih h
    · rw [List.dropWhile_cons_of_neg ha] at h
      cases h
      simpa using ha

theorem words_append_space_fuel {c : Char} (hc : pyIsSpace c = true) :
    ∀ (fuel : Nat) (x y : List Char), x.length ≤ fuel →
      words (x ++ c :: y) = words x ++ words y := by
  intro fuel
  induction fuel with
  | zero =>
    intro x y hx
    have hxe : x = [] := List.length_eq_zero.mp (Nat.le_zero.mp hx)
    subst hxe
    rw [List.nil_append, words_cons_space hc]
    rfl
  | succ fuel ih =>
    intro x y hx
    cases x with
    | nil =>
      rw [List.nil_append, words_cons_space hc]
      rfl
    | cons a x' =>
      rw [List.cons_append]
      by_cases ha : pyIsSpace a
      · rw [words_cons_space ha, words_cons_space ha]
        exact ih x' y (by simpa using hx)
      · have ha' : pyIsSpace a = false := by simpa using ha
        rcases hdw : x'.dropWhile (fun ch => !pyIsSpace ch) with _ | ⟨s, v⟩
        · -- no whitespace inside x'
          have hall : ∀ e ∈ x', (fun ch => !pyIsSpace ch) e = true :=
            List.dropWhile_eq_nil_iff.mp hdw
          rw [words_cons_not_space ha', words_cons_not_space ha']
          rw [List.takeWhile_append_of_pos hall, List.dropWhile_append_of_pos hall]
          rw [List.takeWhile_cons_of_neg (by simp [hc]), List.dropWhile_cons_of_neg (by simp [hc])]
          rw [words_cons_space hc]
          have htk : x'.takeWhile (fun ch => !pyIsSpace ch) = x' := by
            conv_lhs => rw [← List.append_nil x']
            rw [List.takeWhile_append_of_pos hall]
            simp
          rw [hdw, htk]
          simp [words_cons_space, words_nil]
        · -- x' = u ++ s :: v with u whitespace-free and s whitespace
          have hqs : (fun ch => !pyIsSpace ch) s = false := dropWhile_head_false hdw
          have hsp : pyIsSpace s = true := by simpa using hqs
          have hx'eq : x'.takeWhile (fun ch => !pyIsSpace ch) ++ s :: v = x' := by
            rw [← hdw, List.takeWhile_append_dropWhile]
          set u := x'.takeWhile (fun ch => !pyIsSpace ch) with hu
          have hallu : ∀ e ∈ u, (fun ch => !pyIsSpace ch) e = true := by
            intro e he
            rw [hu] at he
            exact List.mem_takeWhile_imp (p := fun ch => !pyIsSpace ch) he
          rw [words_cons_not_space ha', words_cons_not_space ha']
          have hrw : x' ++ c :: y = u ++ s :: (v ++ c :: y) := by
            rw [← hx'eq]; simp
          rw [hrw]
          rw [List.takeWhile_append_of_pos hallu, List.dropWhile_append_of_pos hallu]
          rw [List.takeWhile_cons_of_neg (by simp [hsp]), List.dropWhile_cons_of_neg (by simp [hsp])]
          rw [words_cons_space hsp]
          have hvlen : v.length ≤ fuel := by
            have : x'.length ≤ fuel := by simpa using hx
            have h2 : u.length + (s :: v).length = x'.length := by
              rw [← List.length_append, hx'eq]
            simp only [List.length_cons] at h2
            omega
          rw [ih v y hvlen]
          conv_rhs => rw [← hx'eq]
          rw [List.takeWhile_append_of_pos hallu, List.dropWhile_append_of_pos hallu]
          rw [List.takeWhile_cons_of_neg (by simp [hsp]), List.dropWhile_cons_of_neg (by simp [hsp])]
          rw [words_cons_space hsp]
          simp

theorem words_append_space {c : Char} (hc : pyIsSpace c = true) (x y : List Char) :
    words (x ++ c :: y) = words x ++ words y :=
  words_append_space_fuel hc x.length x y le_rfl

theorem words_append_allspace_left {a : List Char} (ha : ∀ c ∈ a, pyIsSpace c = true)
    (x : List Char) : words (a ++ x) = words x := by
  induction a with
  | nil => rfl
  | cons c rest ih =>
    rw [List.cons_append, words_cons_space (ha c (List.mem_cons_self c rest))]
    exact ih (fun e he => ha e (List.mem_cons_of_mem c he))

theorem words_append_allspace_right {b : List Char} (hb : ∀ c ∈ b, pyIsSpace c = true)
    (x : List Char) : words (x ++ b) = words x := by
  cases b with
  | nil => rw [List.append_nil]
  | cons c rest =>
    rw [words_append_space (hb c (List.mem_cons_self c rest))]
    rw [words_allspace (fun e he => hb e (List.mem_cons_of_mem c he))]
    rw [List.append_nil]

theorem words_dropWhile (l : List Char) : words (l.dropWhile pyIsSpace) = words l := by
  conv_rhs => rw [← List.takeWhile_append_dropWhile (p := pyIsSpace) (l := l)]
  rw [words_append_allspace_left (fun e he => List.mem_takeWhile_imp he)]

theorem pyStrip_decomp (l : List Char) :
    ∃ a b, l = a ++ pyStrip l ++ b ∧ (∀ c ∈ a, pyIsSpace c = true) ∧
      (∀ c ∈ b, pyIsSpace c = true) := by
  refine ⟨l.takeWhile pyIsSpace,
    ((l.dropWhile pyIsSpace).reverse.takeWhile pyIsSpace).reverse, ?_, ?_, ?_⟩
  · conv_lhs => rw [← List.takeWhile_append_dropWhile (p := pyIsSpace) (l := l)]
    rw [List.append_assoc]
    congr 1
    set m := l.dropWhile pyIsSpace with hm
    show m = pyStrip l ++ (m.reverse.takeWhile pyIsSpace).reverse
    have : pyStrip l = (m.reverse.dropWhile pyIsSpace).reverse := by
      unfold pyStrip; rw [← hm]
    rw [this]
    conv_lhs => rw [← List.reverse_reverse m]
    rw [← List.reverse_append, List.takeWhile_append_dropWhile]
  · intro c hc; exact List.mem_takeWhile_imp hc
  · intro c hc
    rw [List.mem_reverse] at hc
    exact List.mem_takeWhile_imp hc

theorem words_strip (l : List Char) : words (pyStrip l) = words l := by
  obtain ⟨a, b, heq, ha, hb⟩ := pyStrip_decomp l
  conv_rhs => rw [heq]
  rw [List.append_assoc, words_append_allspace_left ha, words_append_allspace_right hb]

theorem catWords_append (x y : List (List Char)) :
    catWords (x ++ y) = catWords x ++ catWords y := by
  induction x with
  | nil => rfl
  | cons s rest ih =>
    rw [List.cons_append, catWords, catWords, ih, List.append_assoc]

theorem words_joinSp (parts : List (List Char)) : words (joinSp parts) = catWords parts := by
  induction parts with
  | nil => rfl
  | cons s rest ih =>
    cases rest with
    | nil =>
      show words s = catWords [s]
      rw [catWords, catWords, List.append_nil]
    | cons t rs =>
      rw [show joinSp (s :: t :: rs) = s ++ ' ' :: joinSp (t :: rs) from rfl]
      rw [words_append_space (by decide), ih]
      simp [catWords]

/-! ## Sentence splitting, accumulation loop, rfind and slice lemmas -/

theorem sentGo_ne_nil : ∀ (fuel : Nat) (acc l : List Char), sentGo fuel acc l ≠ [] := by
  intro fuel
  induction fuel with
  | zero => intro acc l; simp [sentGo]
  | succ fuel ih =>
    intro acc l
    match l with
    | [] => simp [sentGo]
    | [c] => simp [sentGo]
    | c :: d :: rest =>
      rw [sentGo]
      split
      · simp
      · exact ih (c :: acc) (d :: rest)

theorem catWords_sentGo : ∀ (fuel : Nat) (acc l : List Char), l.length ≤ fuel →
    catWords (sentGo fuel acc l) = words (acc.reverse ++ l) := by
  intro fuel
  induction fuel with
  | zero =>
    intro acc l h
    have hl : l = [] := List.length_eq_zero.mp (Nat.le_zero.mp h)
    subst hl
    simp [sentGo, catWords]
  | succ fuel ih =>
    intro acc l h
    match l with
    | [] => simp [sentGo, catWords]
    | [c] => simp [sentGo, catWords]
    | c :: d :: rest =>
      rw [sentGo]
      split
      case isTrue hcond =>
        have hd : pyIsSpace d = true := (Bool.and_eq_true _ _).mp hcond |>.2
        rw [catWords, ih [] (rest.dropWhile pyIsSpace)
          (le_trans ((List.dropWhile_sublist pyIsSpace).length_le) (by simp at h ⊢; omega))]
        rw [List.reverse_nil, List.nil_append, words_dropWhile]
        rw [List.append_cons (acc.reverse) c (d :: rest)]
        rw [words_append_space hd]
      case isFalse hcond =>
        rw [ih (c :: acc) (d :: rest) (by simp at h ⊢; omega)]
        rw [List.reverse_cons, List.append_assoc]
        rfl

theorem foldl_splitStep (n : Nat) : ∀ (l : List (List Char)) (p1 p2 : List (List Char)) (cc : Nat),
    (p2 = [] ∨ (¬(2 * cc < n) ∧ p1 ≠ [])) →
    (l.foldl (splitStep n) (p1, p2, cc)).1 ++ (l.foldl (splitStep n) (p1, p2, cc)).2.1 =
      p1 ++ p2 ++ l := by
  intro l
  induction l with
  | nil => intro p1 p2 cc _; simp
  | cons s l' ih =>
    intro p1 p2 cc hinv
    rw [List.foldl_cons]
    by_cases hc : 2 * cc < n ∨ p1 = []
    case pos =>
      have hp2 : p2 = [] := by
        rcases hinv with h | ⟨hcc, hp1⟩
        · exact h
        · rcases hc with h2 | h2
          · exact absurd h2 hcc
          · exact absurd h2 hp1
      subst hp2
      have hstep : splitStep n (p1, [], cc) s = (p1 ++ [s], [], cc + s.length + 1) := by
        unfold splitStep
        dsimp only
        rw [if_pos hc]
      rw [hstep, ih (p1 ++ [s]) [] (cc + s.length + 1) (Or.inl rfl)]
      simp
    case neg =>
      have hc' := not_or.mp hc
      have hstep : splitStep n (p1, p2, cc) s = (p1, p2 ++ [s], cc) := by
        unfold splitStep
        dsimp only
        rw [if_neg hc]
      rw [hstep, ih p1 (p2 ++ [s]) cc (Or.inr hc')]
      simp

theorem dropLast_append_getLastD {α : Type} (l : List α) (d : α) (h : l ≠ []) :
    l.dropLast ++ [l.getLastD d] = l := by
  rw [List.getLastD_eq_getLast?, List.getLast?_eq_getLast l h, Option.getD_some]
  exact List.dropLast_concat_getLast h

theorem pyRfindSpace_spec (l : List Char) : ∀ hi : Nat,
    (pyRfindSpace l hi = -1 ∧ ∀ j, j < hi → ¬ l.getD j 'a' = ' ') ∨
    (∃ i : Nat, pyRfindSpace l hi = (i : Int) ∧ i < hi ∧ l.getD i 'a' = ' ' ∧
      ∀ j, i < j → j < hi → ¬ l.getD j 'a' = ' ') := by
  intro hi
  induction hi with
  | zero => exact Or.inl ⟨rfl, by omega⟩
  | succ hi ih =>
    by_cases hsp : l.getD hi 'a' = ' '
    · refine Or.inr ⟨hi, ?_, by omega, hsp, by omega⟩
      rw [pyRfindSpace, if_pos (by simpa using hsp)]
    · have hstep : pyRfindSpace l (hi + 1) = pyRfindSpace l hi := by
        rw [pyRfindSpace, if_neg (by simpa using hsp)]
      rcases ih with ⟨h1, h2⟩ | ⟨i, h1, h2, h3, h4⟩
      · refine Or.inl ⟨by rw [hstep, h1], ?_⟩
        intro j hj
        rcases Nat.lt_or_ge j hi with hlt | hge
        · exact h2 j hlt
        · have : j = hi := by omega
          subst this; exact hsp
      · refine Or.inr ⟨i, by rw [hstep, h1], by omega, h3, ?_⟩
        intro j hij hj
        rcases Nat.lt_or_ge j hi with hlt | hge
        · exact h4 j hij hlt
        · have : j = hi := by omega
          subst this; exact hsp

theorem pySliceTo_nonneg (l : List Char) (i : Nat) : pySliceTo l (i : Int) = l.take i := by
  unfold pySliceTo
  rw [if_neg (by omega)]
  congr 1

theorem pySliceFrom_nonneg (l : List Char) (i : Nat) : pySliceFrom l (i : Int) = l.drop i := by
  unfold pySliceFrom
  rw [if_neg (by omega)]
  congr 1

theorem pySliceTo_neg_one (l : List Char) : pySliceTo l (-1) = l.dropLast := by
  unfold pySliceTo
  rw [if_pos (by omega), List.dropLast_eq_take]
  congr 1
  omega

theorem pySliceFrom_zero (l : List Char) : pySliceFrom l ((-1) + 1) = l := by
  unfold pySliceFrom
  norm_num

theorem take_getD_drop : ∀ (l : List Char) (i : Nat), i < l.length →
    l.take i ++ l.getD i 'a' :: l.drop (i + 1) = l := by
  intro l
  induction l with
  | nil => intro i h; simp at h
  | cons c t ih =>
    intro i h
    cases i with
    | zero => simp
    | succ j =>
      simp only [List.take_succ_cons, List.getD_cons_succ, List.drop_succ_cons, List.cons_append]
      congr 1
      exact ih j (by simpa using h)

/-! ## Claims C3 and C4 -/

/-- C3 counterexample: for the input `"a b"` with `force_two = true`, the
single-sentence fallback searches for a space only in the first half
(`rfind(" ", 0, 1)` finds none and returns `-1`), so the chunks are
`["a", "a b"]`; joined with one space they read `"a a b"`, which duplicates
the character `a` — not equal to `"a b"` up to whitespace normalization. -/
theorem c3_counterexample :
    split_reply ("a b".toList) true = ["a".toList, "a b".toList] ∧
    ¬ words (joinSp (split_reply ("a b".toList) true)) = words ("a b".toList) :=
  ⟨by decide, by decide⟩

/-- C3 amended: concatenating the chunks returned by `_split_reply` (with a
single separating space when 2 chunks are produced) equals the original text
up to whitespace normalization (equal `words`, i.e. Python
`" ".join(s.split())`), EXCEPT on the single-sentence fallback path when
`rfind` finds no space strictly before the midpoint: there `cut = -1` makes
the chunks `text[:-1]` and `text`, duplicating all but the last character. -/
theorem c3_roundtrip_amended (text : List Char) (force_two : Bool)
    (hok : ¬((force_two = true ∨ 250 < text.length) ∧ (pySentSplit text).length = 1 ∧
      pyRfindSpace text (text.length / 2) = -1)) :
    words (joinSp (split_reply text force_two)) = words text := by
  unfold split_reply
  by_cases h1 : force_two = false ∧ text.length ≤ 250
  · rw [if_pos h1]
    rfl
  · rw [if_neg h1]
    dsimp only
    have hforce : force_two = true ∨ 250 < text.length := by
      rcases not_and_or.mp h1 with h | h
      · left; revert h; cases force_two <;> simp
      · right; omega
    by_cases hs : (pySentSplit text).length = 1
    · rw [if_pos hs]
      rcases pyRfindSpace_spec text (text.length / 2) with ⟨hneg, _⟩ | ⟨i, hieq, hilt, hisp, _⟩
      · exact absurd ⟨hforce, hs, hneg⟩ hok
      · rw [hieq, pySliceTo_nonneg]
        rw [show (i : Int) + 1 = ((i + 1 : Nat) : Int) by push_cast; ring]
        rw [pySliceFrom_nonneg]
        rw [show ∀ a b : List Char, joinSp [a, b] = a ++ ' ' :: b from fun a b => rfl]
        rw [words_append_space (by decide), words_strip, words_strip]
        have hlen : i < text.length := lt_of_lt_of_le hilt (Nat.div_le_self _ _)
        conv_rhs => rw [← take_getD_drop text i hlen]
        rw [hisp, words_append_space (by decide)]
    · rw [if_neg hs]
      have hcat : catWords (pySentSplit text) = words text := by
        have h := catWords_sentGo text.length [] text le_rfl
        simpa [pySentSplit] using h
      have hne : pySentSplit text ≠ [] := sentGo_ne_nil _ _ _
      have hpart : ((pySentSplit text).foldl (splitStep text.length) ([], [], 0)).1 ++
          ((pySentSplit text).foldl (splitStep text.length) ([], [], 0)).2.1 =
            pySentSplit text := by
        simpa using foldl_splitStep text.length (pySentSplit text) [] [] 0 (Or.inl rfl)
      set st := (pySentSplit text).foldl (splitStep text.length) ([], [], 0) with hst
      by_cases hp2 : st.2.1 = []
      · rw [if_pos hp2]
        dsimp only
        have hq1 : st.1 = pySentSplit text := by
          rw [← hpart, hp2, List.append_nil]
        have hq1ne : st.1 ≠ [] := by rw [hq1]; exact hne
        rw [show ∀ a b : List Char, joinSp [a, b] = a ++ ' ' :: b from fun a b => rfl]
        rw [words_append_space (by decide), words_strip, words_strip]
        rw [words_joinSp, words_joinSp]
        rw [← catWords_append, dropLast_append_getLastD _ _ hq1ne, hq1, hcat]
      · rw [if_neg hp2]
        dsimp only
        rw [show ∀ a b : List Char, joinSp [a, b] = a ++ ' ' :: b from fun a b => rfl]
        rw [words_append_space (by decide), words_strip, words_strip]
        rw [words_joinSp, words_joinSp, ← catWords_append, hpart, hcat]

/-- C3 witness. -/
theorem c3_witness :
    (¬((true = true ∨ 250 < ("One. Two.".toList).length) ∧
      (pySentSplit ("One. Two.".toList)).length = 1 ∧
      pyRfindSpace ("One. Two.".toList) (("One. Two.".toList).length / 2) = -1)) ∧
    words (joinSp (split_reply ("One. Two.".toList) true)) = words ("One. Two.".toList) :=
  ⟨by decide, c3_roundtrip_amended ("One. Two.".toList) true (by decide)⟩

/-- C4 counterexample: `"abcd"` contains no whitespace, so the claim requires a
split at the midpoint, `["ab", "cd"]`; the code's `rfind` returns `-1`, and
Python slicing with `-1` yields `["abc", "abcd"]` instead. -/
theorem c4_counterexample :
    split_reply ("abcd".toList) true = ["abc".toList, "abcd".toList] ∧
    ¬ split_reply ("abcd".toList) true = ["ab".toList, "cd".toList] :=
  ⟨by decide, by decide⟩

/-- C4 amended: on the single-sentence path, the code splits at the LAST space
strictly before the midpoint `⌊n/2⌋` (not the space nearest the midpoint): if
such a space exists at maximal index `i < ⌊n/2⌋`, the chunks are
`text[:i].strip()` and `text[i+1:].strip()`; if no space occurs in the first
half (in particular if the text has no whitespace at all), `rfind` returns
`-1` and the chunks are `text[:-1].strip()` (all but the last character) and
`text.strip()` (the whole text) — not a midpoint split. -/
theorem c4_single_sentence_fallback (text : List Char) (force_two : Bool)
    (hforce : force_two = true ∨ 250 < text.length)
    (hone : (pySentSplit text).length = 1) :
    (∃ i : Nat, i < text.length / 2 ∧ text.getD i 'a' = ' ' ∧
        (∀ j, i < j → j < text.length / 2 → ¬ text.getD j 'a' = ' ') ∧
        split_reply text force_two = [pyStrip (text.take i), pyStrip (text.drop (i + 1))]) ∨
    ((∀ j, j < text.length / 2 → ¬ text.getD j 'a' = ' ') ∧
      split_reply text force_two = [pyStrip text.dropLast, pyStrip text]) := by
  have hnot : ¬(force_two = false ∧ text.length ≤ 250) := by
    rcases hforce with h | h
    · intro hcon; rw [h] at hcon; simp at hcon
    · intro hcon; exact absurd hcon.2 (by omega)
  have hsplit : split_reply text force_two =
      [pyStrip (pySliceTo text (pyRfindSpace text (text.length / 2))),
       pyStrip (pySliceFrom text (pyRfindSpace text (text.length / 2) + 1))] := by
    unfold split_reply
    rw [if_neg hnot]
    dsimp only
    rw [if_pos hone]
  rcases pyRfindSpace_spec text (text.length / 2) with ⟨hneg, hnone⟩ | ⟨i, hieq, hilt, hisp, hmax⟩
  · right
    refine ⟨hnone, ?_⟩
    rw [hsplit, hneg, pySliceTo_neg_one, pySliceFrom_zero]
  · left
    refine ⟨i, hilt, hisp, hmax, ?_⟩
    rw [hsplit, hieq, pySliceTo_nonneg]
    rw [show (i : Int) + 1 = ((i + 1 : Nat) : Int) by push_cast; ring]
    rw [pySliceFrom_nonneg]

/-- C4 witness: `"ab cd ef gh"` is one sentence; the only space in the first
half is at index 2, and the code splits there. -/
theorem c4_witness :
    ((true = true ∨ 250 < ("ab cd ef gh".toList).length) ∧
      (pySentSplit ("ab cd ef gh".toList)).length = 1) ∧
    ((∃ i : Nat, i < ("ab cd ef gh".toList).length / 2 ∧
        ("ab cd ef gh".toList).getD i 'a' = ' ' ∧
        (∀ j, i < j → j < ("ab cd ef gh".toList).length / 2 →
          ¬ ("ab cd ef gh".toList).getD j 'a' = ' ') ∧
        split_reply ("ab cd ef gh".toList) true =
          [pyStrip (("ab cd ef gh".toList).take i),
           pyStrip (("ab cd ef gh".toList).drop (i + 1))]) ∨
    ((∀ j, j < ("ab cd ef gh".toList).length / 2 →
        ¬ ("ab cd ef gh".toList).getD j 'a' = ' ') ∧
      split_reply ("ab cd ef gh".toList) true =
        [pyStrip ("ab cd ef gh".toList).dropLast, pyStrip ("ab cd ef gh".toList)])) :=
  ⟨⟨Or.inl rfl, by decide⟩,
   c4_single_sentence_fallback ("ab cd ef gh".toList) true (Or.inl rfl) (by decide)⟩

/-! ## Substring machinery for the reset trigger -/

theorem begWith_iff : ∀ p l : List Char, begWith p l = true ↔ ∃ v, l = p ++ v := by
  intro p
  induction p with
  | nil =>
    intro l
    simp [begWith]
  | cons a p' ih =>
    intro l
    cases l with
    | nil =>
      simp [begWith]
    | cons b l' =>
      rw [show begWith (a :: p') (b :: l') = ((a == b) && begWith p' l') from rfl]
      rw [Bool.and_eq_true, beq_iff_eq, ih l']
      constructor
      · rintro ⟨rfl, v, rfl⟩
        exact ⟨v, rfl⟩
      · rintro ⟨v, hv⟩
        rw [List.cons_append] at hv
        injection hv with h1 h2
        subst h1
        exact ⟨rfl, v, h2⟩

theorem containsSeg_iff : ∀ l p : List Char, containsSeg p l = true ↔ ∃ u v, l = u ++ p ++ v := by
  intro l
  induction l with
  | nil =>
    intro p
    rw [show containsSeg p [] = p.isEmpty from rfl, List.isEmpty_iff]
    constructor
    · rintro rfl
      exact ⟨[], [], rfl⟩
    · rintro ⟨u, v, huv⟩
      have hlen := congrArg List.length huv
      simp at hlen
      exact List.length_eq_zero.mp (by omega)
  | cons c rest ih =>
    intro p
    rw [show containsSeg p (c :: rest) = (begWith p (c :: rest) || containsSeg p rest) from rfl]
    rw [Bool.or_eq_true, begWith_iff, ih]
    constructor
    · rintro (⟨v, hv⟩ | ⟨u, v, huv⟩)
      · exact ⟨[], v, by simp [hv]⟩
      · exact ⟨c :: u, v, by simp [huv]⟩
    · rintro ⟨u, v, huv⟩
      cases u with
      | nil => exact Or.inl ⟨v, by simpa using huv⟩
      | cons a u' =>
        rw [List.cons_append] at huv
        injection huv with h1 h2
        exact Or.inr ⟨u', v, h2⟩

theorem seg_drop_spaces_left {p : List Char} (hp : ∀ c ∈ p, pyIsSpace c = false)
    (hne : p ≠ []) :
    ∀ (a x : List Char), (∀ c ∈ a, pyIsSpace c = true) →
      (∃ u v, a ++ x = u ++ p ++ v) → ∃ u v, x = u ++ p ++ v := by
  intro a
  induction a with
  | nil =>
    intro x _ h
    simpa using h
  | cons s a' ih =>
    intro x ha h
    apply ih x (fun c hc => ha c (List.mem_cons_of_mem s hc))
    obtain ⟨u, v, huv⟩ := h
    rw [List.cons_append] at huv
    cases u with
    | nil =>
      rcases p with _ | ⟨q, p'⟩
      · exact absurd rfl hne
      · rw [List.nil_append, List.cons_append] at huv
        injection huv with h1 _
        have hq : pyIsSpace q = false := hp q (List.mem_cons_self q p')
        have hs : pyIsSpace s = true := ha s (List.mem_cons_self s a')
        rw [h1, hq] at hs
        exact absurd hs (by simp)
    | cons b u' =>
      injection huv with h1 h2
      exact ⟨u', v, h2⟩

theorem seg_drop_spaces_right {p : List Char} (hp : ∀ c ∈ p, pyIsSpace c = false)
    (hne : p ≠ []) (x b : List Char) (hb : ∀ c ∈ b, pyIsSpace c = true)
    (h : ∃ u v, x ++ b = u ++ p ++ v) : ∃ u v, x = u ++ p ++ v := by
  obtain ⟨u, v, huv⟩ := h
  have hrev : b.reverse ++ x.reverse = v.reverse ++ p.reverse ++ u.reverse := by
    calc b.reverse ++ x.reverse = (x ++ b).reverse := by rw [List.reverse_append]
    _ = (u ++ p ++ v).reverse := by rw [huv]
    _ = v.reverse ++ p.reverse ++ u.reverse := by
        simp [List.reverse_append, List.append_assoc]
  have hx : ∃ u' v', x.reverse = u' ++ p.reverse ++ v' := by
    apply seg_drop_spaces_left (p := p.reverse) ?_ ?_ b.reverse x.reverse ?_
      ⟨v.reverse, u.reverse, hrev⟩
    · intro c hc
      exact hp c (List.mem_reverse.mp hc)
    · simpa using hne
    · intro c hc
      exact hb c (List.mem_reverse.mp hc)
  obtain ⟨u', v', hxe⟩ := hx
  refine ⟨v'.reverse, u'.reverse, ?_⟩
  have hback := congrArg List.reverse hxe
  simpa [List.reverse_append, List.append_assoc] using hback

theorem toLower_space {c : Char} (hc : pyIsSpace c = true) : Char.toLower c = c := by
  have hcase := hc
  simp [pyIsSpace] at hcase
  rcases hcase with ((((rfl | rfl) | rfl) | rfl) | rfl) | rfl <;> decide

theorem lowerL_allspace : ∀ {a : List Char}, (∀ c ∈ a, pyIsSpace c = true) → lowerL a = a := by
  intro a
  induction a with
  | nil => intro _; rfl
  | cons c rest ih =>
    intro ha
    show Char.toLower c :: lowerL rest = c :: rest
    rw [toLower_space (ha c (List.mem_cons_self c rest)),
      ih (fun e he => ha e (List.mem_cons_of_mem c he))]

/-- The reset trigger contains no whitespace, so an occurrence in the lowered
raw text survives the `strip()` that `handle_msg` performs first. -/
theorem trigger_in_strip {text : List Char}
    (h : containsSeg (lowerL RESET_TRIGGER) (lowerL text) = true) :
    containsSeg (lowerL RESET_TRIGGER) (lowerL (pyStrip text)) = true := by
  have htrig : lowerL RESET_TRIGGER = RESET_TRIGGER := by decide
  rw [htrig] at h ⊢
  rw [containsSeg_iff] at h ⊢
  obtain ⟨a, b, hdec, ha, hb⟩ := pyStrip_decomp text
  have hlow : lowerL text = a ++ (lowerL (pyStrip text) ++ b) := by
    conv_lhs => rw [hdec]
    unfold lowerL
    rw [List.map_append, List.map_append]
    rw [show List.map Char.toLower a = a from lowerL_allspace ha]
    rw [show List.map Char.toLower b = b from lowerL_allspace hb]
    rw [List.append_assoc]
  rw [hlow] at h
  have hp : ∀ c ∈ RESET_TRIGGER, pyIsSpace c = false := by decide
  have hpne : RESET_TRIGGER ≠ [] := by decide
  have h1 : ∃ u v, lowerL (pyStrip text) ++ b = u ++ RESET_TRIGGER ++ v :=
    seg_drop_spaces_left hp hpne a (lowerL (pyStrip text) ++ b) ha h
  exact seg_drop_spaces_right hp hpne _ b hb h1

/-! ## Claims C5, C6, C8 -/

/-- C5 counterexample: on the very first message of a session (`chat_data` has
no `"history"` key), a backend failure leaves NO stored history at all: the
freshly created local list is discarded because the early `return` on the
exception path skips the assignment `context.chat_data["history"] = history`.
The apology is sent, but the stored history does not retain the just-appended
user message — it does not exist. -/
theorem c5_counterexample :
    (handle_msg (fun l => l.length) none ("Hello".toList) (fun _ => none) 0).stored = none ∧
    (handle_msg (fun l => l.length) none ("Hello".toList) (fun _ => none) 0).outbound =
      [APOLOGY] :=
  ⟨by decide, by decide⟩

/-- C5 amended: for a session whose history is already stored in `chat_data`
(i.e. not the first message of the session), a backend failure makes the
handler send the fixed apology as the only outbound message, and the stored
history (mutated in place through the alias) is exactly the seeded, trimmed
history whose last element is the just-appended user message — no assistant
message is added.  On a session's first message the stored history instead
remains absent (see the counterexample). -/
theorem c5_backend_failure (encLen : List Char → Nat) (h0 : List Msg) (text : List Char)
    (backend : List Msg → Option (List Char)) (choice : Fin 3)
    (hnr : containsSeg (lowerL RESET_TRIGGER) (lowerL (pyStrip text)) = false)
    (hfail : backend (preHistory encLen (some h0) text) = none) :
    (handle_msg encLen (some h0) text backend choice).outbound = [APOLOGY] ∧
    (handle_msg encLen (some h0) text backend choice).stored =
      some (preHistory encLen (some h0) text) ∧
    (preHistory encLen (some h0) text).getLast? = some ⟨roleUser, pyStrip text⟩ := by
  have hcomp : handle_msg encLen (some h0) text backend choice =
      { outbound := [APOLOGY], stored := some (preHistory encLen (some h0) text),
        backendCalled := true } := by
    unfold handle_msg
    rw [if_neg (by simp [hnr])]
    dsimp only
    rw [hfail]
  rw [hcomp]
  refine ⟨rfl, rfl, ?_⟩
  have hlast := (trimGo_invariants encLen MAX_TOKENS_CONTEXT
    (seedHistory (some h0) (pyStrip text)).length (seedHistory (some h0) (pyStrip text))
    (by omega)).2.2.1
  unfold preHistory trim_to_limit
  rw [hlast]
  unfold seedHistory
  rw [List.getLast?_concat]

/-- C5 witness. -/
theorem c5_witness :
    containsSeg (lowerL RESET_TRIGGER) (lowerL (pyStrip ("Hi".toList))) = false ∧
    (handle_msg (fun l => l.length) (some [⟨roleSystem, SYSTEM_PROMPT⟩]) ("Hi".toList)
        (fun _ => none) 0).outbound = [APOLOGY] ∧
    (handle_msg (fun l => l.length) (some [⟨roleSystem, SYSTEM_PROMPT⟩]) ("Hi".toList)
        (fun _ => none) 0).stored =
      some (preHistory (fun l => l.length) (some [⟨roleSystem, SYSTEM_PROMPT⟩]) ("Hi".toList)) ∧
    (preHistory (fun l => l.length) (some [⟨roleSystem, SYSTEM_PROMPT⟩])
        ("Hi".toList)).getLast? = some ⟨roleUser, pyStrip ("Hi".toList)⟩ := by
  have h := c5_backend_failure (fun l => l.length) [⟨roleSystem, SYSTEM_PROMPT⟩] ("Hi".toList)
    (fun _ => none) 0 (by decide) rfl
  exact ⟨by decide, h.1, h.2.1, h.2.2⟩

/-- C6 counterexample: after a reset, a "very next user message" that itself
contains the trigger (here `/done` again) does NOT re-establish the system
prompt as element 0: the history is wiped to the empty list again, which has
no element 0 at all.  The claim's final clause is therefore false for
trigger-containing follow-up messages. -/
theorem c6_counterexample :
    (handle_msg (fun l => l.length)
        (handle_msg (fun l => l.length) none ("/done".toList) (fun _ => none) 0).stored
        ("/done".toList) (fun _ => none) 0).stored = some [] ∧
    ((handle_msg (fun l => l.length)
        (handle_msg (fun l => l.length) none ("/done".toList) (fun _ => none) 0).stored
        ("/done".toList) (fun _ => none) 0).stored.getD []).head? = none :=
  ⟨by decide, by decide⟩

theorem getD_mem_preset (i : Nat) (h : i < 3) :
    PRESET_RESPONSES.getD i [] ∈ PRESET_RESPONSES := by
  match i, h with
  | 0, _ => decide
  | 1, _ => decide
  | 2, _ => decide

/-- C6 amended: an inbound text containing the reset trigger as a
case-insensitive substring makes the handler store the empty history, reply
with exactly one acknowledgement drawn from the fixed canned set, and skip the
backend call; and the very next user message that does NOT itself contain the
trigger re-establishes the system prompt as element 0 of the stored history
(whatever its backend does). -/
theorem c6_reset_trigger (encLen : List Char → Nat) (chatData : Option (List Msg))
    (text : List Char) (backend : List Msg → Option (List Char)) (choice : Fin 3)
    (htrig : containsSeg (lowerL RESET_TRIGGER) (lowerL text) = true) :
    (handle_msg encLen chatData text backend choice).stored = some [] ∧
    (handle_msg encLen chatData text backend choice).outbound =
      [PRESET_RESPONSES.getD choice.val []] ∧
    PRESET_RESPONSES.getD choice.val [] ∈ PRESET_RESPONSES ∧
    (handle_msg encLen chatData text backend choice).backendCalled = false ∧
    (∀ (encLen2 : List Char → Nat) (text2 : List Char)
        (backend2 : List Msg → Option (List Char)) (choice2 : Fin 3),
      containsSeg (lowerL RESET_TRIGGER) (lowerL (pyStrip text2)) = false →
      ∃ rest, (handle_msg encLen2 (handle_msg encLen chatData text backend choice).stored
          text2 backend2 choice2).stored = some (⟨roleSystem, SYSTEM_PROMPT⟩ :: rest)) := by
  have hguard := trigger_in_strip htrig
  have hmsg : handle_msg encLen chatData text backend choice =
      { outbound := [PRESET_RESPONSES.getD choice.val []], stored := some [],
        backendCalled := false } := by
    unfold handle_msg
    rw [if_pos hguard]
  rw [hmsg]
  refine ⟨rfl, rfl, ?_, rfl, ?_⟩
  · exact getD_mem_preset choice.val choice.isLt
  · intro encLen2 text2 backend2 choice2 hnot
    unfold handle_msg
    rw [if_neg (by simp [hnot])]
    dsimp only
    have hpre : preHistory encLen2 (some []) text2 =
        [⟨roleSystem, SYSTEM_PROMPT⟩, ⟨roleUser, pyStrip text2⟩] := by
      unfold preHistory seedHistory
      rw [show (some ([] : List Msg)).getD [] = [] from rfl]
      rw [if_pos rfl]
      rw [trim_to_limit_short _ _ _ (by simp)]
      rfl
    rw [hpre]
    rcases hbk : backend2 [⟨roleSystem, SYSTEM_PROMPT⟩, ⟨roleUser, pyStrip text2⟩] with _ | raw
    · exact ⟨[⟨roleUser, pyStrip text2⟩], rfl⟩
    · exact ⟨[⟨roleUser, pyStrip text2⟩, ⟨roleAssistant, pyStrip raw⟩], rfl⟩

/-- C6 witness. -/
theorem c6_witness :
    containsSeg (lowerL RESET_TRIGGER) (lowerL ("Ok /DONE thanks".toList)) = true ∧
    (handle_msg (fun l => l.length) (some [⟨roleUser, "x".toList⟩]) ("Ok /DONE thanks".toList)
        (fun _ => none) 2).stored = some [] :=
  ⟨by decide,
   (c6_reset_trigger (fun l => l.length) (some [⟨roleUser, "x".toList⟩])
     ("Ok /DONE thanks".toList) (fun _ => none) 2 (by decide)).1⟩

/-- C8: on a successful non-reset turn the stored history is the pre-backend
history with exactly one appended assistant message whose content is the
whole backend reply, stripped — never an individual display chunk — while the
outbound messages are the chunks of `_split_reply` applied to that same
unsplit reply. -/
theorem c8_unsplit_reply_to_history (encLen : List Char → Nat) (chatData : Option (List Msg))
    (text : List Char) (backend : List Msg → Option (List Char)) (choice : Fin 3)
    (raw : List Char)
    (hnr : containsSeg (lowerL RESET_TRIGGER) (lowerL (pyStrip text)) = false)
    (hok : backend (preHistory encLen chatData text) = some raw) :
    (handle_msg encLen chatData text backend choice).stored =
      some (preHistory encLen chatData text ++ [⟨roleAssistant, pyStrip raw⟩]) ∧
    (handle_msg encLen chatData text backend choice).outbound =
      split_reply (pyStrip raw) false ∧
    ((handle_msg encLen chatData text backend choice).stored.getD []).getLast? =
      some ⟨roleAssistant, pyStrip raw⟩ := by
  have hcomp : handle_msg encLen chatData text backend choice =
      { outbound := split_reply (pyStrip raw) false,
        stored := some (preHistory encLen chatData text ++ [⟨roleAssistant, pyStrip raw⟩]),
        backendCalled := true } := by
    unfold handle_msg
    rw [if_neg (by simp [hnr])]
    dsimp only
    rw [hok]
  rw [hcomp]
  refine ⟨rfl, rfl, ?_⟩
  simp [List.getLast?_concat]

/-- C8 witness: the backend reply `" Hi there. "` is stripped to
`"Hi there."` and stored whole; the single display chunk is separate. -/
theorem c8_witness :
    containsSeg (lowerL RESET_TRIGGER) (lowerL (pyStrip ("Hello".toList))) = false ∧
    (handle_msg (fun l => l.length) none ("Hello".toList)
        (fun _ => some (" Hi there. ".toList)) 0).stored =
      some (preHistory (fun l => l.length) none ("Hello".toList) ++
        [⟨roleAssistant, pyStrip (" Hi there. ".toList)⟩]) ∧
    (handle_msg (fun l => l.length) none ("Hello".toList)
        (fun _ => some (" Hi there. ".toList)) 0).outbound =
      split_reply (pyStrip (" Hi there. ".toList)) false := by
  have h := c8_unsplit_reply_to_history (fun l => l.length) none ("Hello".toList)
    (fun _ => some (" Hi there. ".toList)) 0 (" Hi there. ".toList) (by decide) rfl
  exact ⟨by decide, h.1, h.2.1⟩
